import Mathlib

/-!
Shallow embedding of the policy-based Vector container of src/11.cpp.

A C++ pointer returned by the allocation policy is modelled as an index
into an explicit heap of buffers; each buffer is a list of slots, a slot
holding `some x` when an element object is constructed in it and `none`
when the slot is raw (uninitialized or already destructed) storage.  The
data members of the container (data_, size_, capacity_) become a record;
every member function becomes a function threading the heap explicitly.
The instrumentation policy only logs and never touches state, so it is
omitted; the thread policy's lock() / unlock() calls are modelled exactly
where a claim is about them (the guard-acquisition order of the
cross-instance operations).
-/

namespace PolicyVec

/-- A buffer: capacity-many raw slots; `some x` means an element is
constructed in the slot. -/
abbrev Buffer (α : Type) := List (Option α)

/-- The allocator's view of memory: the buffer at index i of the list is
the storage behind pointer value i.  Allocation appends a fresh buffer,
so pointer values are never reused; deallocation releases ownership (the
model keeps the dead slot list in place, it is never read through again
by well-formed code). -/
structure Heap (α : Type) where
  bufs : List (Buffer α)
deriving DecidableEq

/-- Storage behind pointer b. -/
def Heap.bufAt (h : Heap α) (b : Nat) : Buffer α := h.bufs.getD b []

/-- AllocPolicy allocate(n) (src/11.cpp lines 13-16 and 28-31): extends
the heap with a fresh buffer of n uninitialized slots and returns the
fresh pointer. -/
def Heap.alloc (h : Heap α) (n : Nat) : Heap α × Nat :=
  ({ bufs := h.bufs ++ [List.replicate n none] }, h.bufs.length)

/-- Write slot i of buffer b: a placement-new stores `some x`, an
explicit destructor call stores `none`. -/
def Heap.writeSlot (h : Heap α) (b i : Nat) (x : Option α) : Heap α :=
  { bufs := h.bufs.set b ((h.bufAt b).set i x) }

/-- Read slot i of buffer b. -/
def Heap.readSlot (h : Heap α) (b i : Nat) : Option α := (h.bufAt b).getD i none

/-- The data members of the container (src/11.cpp lines 104-108): data_
is the owned pointer (`none` = nullptr), size_ the number of live
elements, capacity_ the slot count of the owned buffer. -/
structure Vector where
  data_ : Option Nat
  size_ : Nat
  capacity_ : Nat
deriving DecidableEq, Repr

/-- Read data_[i] through the owned pointer; a read through nullptr
yields `none` (standing for behavior the code never exercises on valid
states). -/
def readElem (h : Heap α) (v : Vector) (i : Nat) : Option α :=
  match v.data_ with
  | none => none
  | some b => h.readSlot b i

/-- Write data_[i] through the owned pointer. -/
def writeElem (h : Heap α) (v : Vector) (i : Nat) (x : Option α) : Heap α :=
  match v.data_ with
  | none => h
  | some b => h.writeSlot b i x

/-- The default-construction loop of the sized constructor: iterations
i = 0 .. n-1 of new (&data_[i]) T() (src/11.cpp lines 125-127). -/
def initLoop [Inhabited α] (b : Nat) (h : Heap α) : Nat → Heap α
  | 0 => h
  | n + 1 => (initLoop b h n).writeSlot b n (some default)

/-- One copy iteration: new (&dst[i]) T(src[i]). -/
def copyStep (src : Option Nat) (dst : Nat) (h : Heap α) (i : Nat) : Heap α :=
  match src with
  | none => h.writeSlot dst i none
  | some b => h.writeSlot dst i (h.readSlot b i)

/-- The element-copy loop of copy construction and copy assignment:
iterations i = 0 .. n-1 of new (&dst[i]) T(other.data_[i]) (src/11.cpp
lines 150-152 and 178-180). -/
def copyLoop (src : Option Nat) (dst : Nat) (h : Heap α) : Nat → Heap α
  | 0 => h
  | n + 1 => copyStep src dst (copyLoop src dst h n) n

/-- One relocation iteration of reserve:
new (&dst[i]) T(std::move(src[i])); src[i].~T(). -/
def moveStep (src : Option Nat) (dst : Nat) (h : Heap α) (i : Nat) : Heap α :=
  match src with
  | none => h.writeSlot dst i none
  | some b => (h.writeSlot dst i (h.readSlot b i)).writeSlot b i none

/-- The element-relocation loop of reserve: iterations i = 0 .. n-1
(src/11.cpp lines 275-278). -/
def moveLoop (src : Option Nat) (dst : Nat) (h : Heap α) : Nat → Heap α
  | 0 => h
  | n + 1 => moveStep src dst (moveLoop src dst h n) n

/-- The cleanup loop of the assignment operators: iterations i = 0 .. n-1
of data_[i].~T() (src/11.cpp lines 166-168 and 217-219). -/
def destructLoop (b : Option Nat) (h : Heap α) : Nat → Heap α
  | 0 => h
  | n + 1 =>
    match b with
    | none => destructLoop none h n
    | some bb => (destructLoop (some bb) h n).writeSlot bb n none

/-- The default constructor (src/11.cpp lines 114-119): every data
member keeps its default initializer nullptr / 0 / 0. -/
def mkVector : Vector := { data_ := none, size_ := 0, capacity_ := 0 }

/-- The sized constructor (src/11.cpp lines 121-129): sets
size_ = capacity_ = initial_size and, when initial_size > 0, allocates a
buffer and default-constructs initial_size elements in it. -/
def mkVectorSized [Inhabited α] (h : Heap α) (initial_size : Nat) : Heap α × Vector :=
  if 0 < initial_size then
    let p := h.alloc initial_size
    (initLoop p.2 p.1 initial_size,
     { data_ := some p.2, size_ := initial_size, capacity_ := initial_size })
  else
    (h, { data_ := none, size_ := initial_size, capacity_ := initial_size })

/-- reserve(new_capacity) (src/11.cpp lines 266-286), in the run where
every allocation succeeds: early return when new_capacity ≤ capacity_,
otherwise allocate, relocate the size_ live elements, release the old
buffer and update data_ and capacity_ (size_ untouched). -/
def reserve (h : Heap α) (v : Vector) (new_capacity : Nat) : Heap α × Vector :=
  if new_capacity ≤ v.capacity_ then (h, v)
  else
    let p := h.alloc new_capacity
    (moveLoop v.data_ p.2 p.1 v.size_,
     { v with data_ := some p.2, capacity_ := new_capacity })

/-- The doubling policy of push_back (src/11.cpp line 244):
new_capacity = capacity_ == 0 ? 1 : capacity_ * 2. -/
def new_capacity (capacity_ : Nat) : Nat := if capacity_ = 0 then 1 else capacity_ * 2

/-- push_back(value) (src/11.cpp lines 239-252): grow when
size_ == capacity_, then construct the value at index size_ and
increment size_. -/
def push_back (h : Heap α) (v : Vector) (value : α) : Heap α × Vector :=
  let p :=
    if v.size_ = v.capacity_ then reserve h v (new_capacity v.capacity_) else (h, v)
  (writeElem p.1 p.2 p.2.size_ (some value), { p.2 with size_ := p.2.size_ + 1 })

/-- pop_back() (src/11.cpp lines 254-264): when size_ > 0, decrement
size_ and destruct the element at the decremented index; otherwise do
nothing. -/
def pop_back (h : Heap α) (v : Vector) : Heap α × Vector :=
  if 0 < v.size_ then
    (writeElem h v (v.size_ - 1) none, { v with size_ := v.size_ - 1 })
  else (h, v)

/-- An indexed read through operator[] (src/11.cpp lines 288-302). -/
def readIdx (h : Heap α) (v : Vector) (index : Nat) : Option α := readElem h v index

/-- An indexed write: assignment through the reference returned by
operator[] (src/11.cpp lines 288-294). -/
def writeIdx (h : Heap α) (v : Vector) (index : Nat) (x : α) : Heap α :=
  writeElem h v index (some x)

/-- size() (src/11.cpp lines 304-306). -/
def size (v : Vector) : Nat := v.size_

/-- capacity() (src/11.cpp lines 308-310). -/
def capacity (v : Vector) : Nat := v.capacity_

/-- The copy constructor (src/11.cpp lines 141-157): copies size_ and
capacity_, and when capacity_ > 0 allocates a fresh buffer and
copy-constructs the size_ live source elements into it; when
capacity_ = 0 the pointer keeps its default initializer nullptr. -/
def copyCtor (h : Heap α) (other : Vector) : Heap α × Vector :=
  if 0 < other.capacity_ then
    let p := h.alloc other.capacity_
    (copyLoop other.data_ p.2 p.1 other.size_,
     { data_ := some p.2, size_ := other.size_, capacity_ := other.capacity_ })
  else
    (h, { data_ := none, size_ := other.size_, capacity_ := other.capacity_ })

/-- The copy assignment operator (src/11.cpp lines 159-189); thisEqOther
is the pointer comparison this == &other of line 161: when the two
references name one instance nothing at all happens, otherwise the
destination's elements are destructed, its buffer released, and the
source's state copied as in the copy constructor. -/
def copyAssign (h : Heap α) (self other : Vector) (thisEqOther : Bool) : Heap α × Vector :=
  if thisEqOther then (h, self)
  else
    let h1 := destructLoop self.data_ h self.size_
    if 0 < other.capacity_ then
      let p := h1.alloc other.capacity_
      (copyLoop other.data_ p.2 p.1 other.size_,
       { data_ := some p.2, size_ := other.size_, capacity_ := other.capacity_ })
    else
      (h1, { data_ := none, size_ := other.size_, capacity_ := other.capacity_ })

/-- The move constructor (src/11.cpp lines 192-207): returns the heap
(untouched: no element is copied, moved or destructed), the constructed
vector and the moved-from source. -/
def moveCtor (h : Heap α) (other : Vector) : Heap α × Vector × Vector :=
  (h,
   { data_ := other.data_, size_ := other.size_, capacity_ := other.capacity_ },
   { data_ := none, size_ := 0, capacity_ := 0 })

/-- The move assignment operator (src/11.cpp lines 210-237): returns the
heap, the new value of the destination and the moved-from source;
thisEqOther is the pointer comparison this == &other of line 212. -/
def moveAssign (h : Heap α) (self other : Vector) (thisEqOther : Bool) :
    Heap α × Vector × Vector :=
  if thisEqOther then (h, self, other)
  else
    (destructLoop self.data_ h self.size_,
     { data_ := other.data_, size_ := other.size_, capacity_ := other.capacity_ },
     { data_ := none, size_ := 0, capacity_ := 0 })

/-- The guard-acquisition sequence of every cross-instance operation:
mutex_.lock() then other.mutex_.lock() (src/11.cpp lines 143-144,
162-163, 194-195, 213-214) — destination instance first, then source
instance, whatever the identities of the two instances are. -/
def copyLockOrder (thisId otherId : Nat) : List Nat := [thisId, otherId]

/-- reserve (src/11.cpp lines 266-286) in the run where std::malloc
inside MallocAllocator allocate (src/11.cpp lines 13-16) returns nullptr
— out of memory; the result is never checked — for a vector with
size_ = 0, so that the relocation loop is vacuous: past the early-return
test the code releases the old buffer if any, then stores
data_ = new_data = nullptr and capacity_ = new_capacity and returns
normally, reporting nothing.  (With size_ > 0 the relocation loop would
write through the null pointer.) -/
def reserveNullAlloc (h : Heap α) (v : Vector) (new_cap : Nat) : Heap α × Vector :=
  if new_cap ≤ v.capacity_ then (h, v)
  else (h, { v with data_ := none, capacity_ := new_cap })

/-- A call to one of the element-mutating member functions. -/
inductive Mut (α : Type) where
  | push : α → Mut α
  | pop : Mut α
  | write : Nat → α → Mut α
deriving Repr

/-- Run one mutating call on an instance. -/
def applyMut (s : Heap α × Vector) (m : Mut α) : Heap α × Vector :=
  match m with
  | .push x => push_back s.1 s.2 x
  | .pop => pop_back s.1 s.2
  | .write i x => (writeIdx s.1 s.2 i x, s.2)

/-- Run a sequence of mutating calls on an instance. -/
def applyMuts (s : Heap α × Vector) (ms : List (Mut α)) : Heap α × Vector :=
  ms.foldl applyMut s

/-- Run a sequence of push_back calls. -/
def pushAll (s : Heap α × Vector) (xs : List α) : Heap α × Vector :=
  xs.foldl (fun t x => push_back t.1 t.2 x) s

/-- The state invariant of the container record: 0 ≤ size_ ≤ capacity_
and the buffer pointer is nullptr iff capacity_ = 0. -/
abbrev StateInv (v : Vector) : Prop :=
  v.size_ ≤ v.capacity_ ∧ (v.data_ = none ↔ v.capacity_ = 0)

/-- Full validity of an instance against the heap: the state invariant,
and the owned pointer (when not nullptr) referring to an allocated
buffer whose slot count is capacity_. -/
abbrev Valid (h : Heap α) (v : Vector) : Prop :=
  StateInv v ∧ ∀ b ∈ v.data_, b < h.bufs.length ∧ (h.bufAt b).length = v.capacity_

/-! ### List-level helper lemmas -/

theorem getD_set_self : ∀ (l : List β) (i : Nat) (x d : β), i < l.length →
    (l.set i x).getD i d = x
  | [], i, _, _, hi => absurd hi (by simp)
  | _ :: _, 0, _, _, _ => rfl
  | _ :: l, i + 1, x, d, hi => getD_set_self l i x d (Nat.lt_of_succ_lt_succ hi)

theorem getD_set_ne : ∀ (l : List β) (i j : Nat) (x d : β), i ≠ j →
    (l.set j x).getD i d = l.getD i d
  | [], _, _, _, _, _ => rfl
  | _ :: _, 0, 0, _, _, hij => absurd rfl hij
  | _ :: _, 0, _ + 1, _, _, _ => rfl
  | _ :: _, _ + 1, 0, _, _, _ => rfl
  | _ :: l, i + 1, j + 1, x, d, hij =>
    getD_set_ne l i j x d (fun e => hij (by rw [e]))

theorem getD_replicate_lt : ∀ (n i : Nat) (y d : β), i < n →
    (List.replicate n y).getD i d = y
  | 0, i, _, _, hi => absurd hi (by simp)
  | _ + 1, 0, _, _, _ => rfl
  | n + 1, i + 1, y, d, hi => getD_replicate_lt n i y d (Nat.lt_of_succ_lt_succ hi)

/-! ### Heap-level helper lemmas -/

theorem bufs_length_writeSlot (h : Heap α) (b i : Nat) (x : Option α) :
    (h.writeSlot b i x).bufs.length = h.bufs.length := by
  simp [Heap.writeSlot]

theorem bufAt_writeSlot_ne (h : Heap α) (b b' i : Nat) (x : Option α) (hb : b ≠ b') :
    (h.writeSlot b' i x).bufAt b = h.bufAt b := by
  simp only [Heap.writeSlot, Heap.bufAt]
  exact getD_set_ne _ _ _ _ _ hb

theorem bufAt_writeSlot_self (h : Heap α) (b i : Nat) (x : Option α) :
    (h.writeSlot b i x).bufAt b = (h.bufAt b).set i x := by
  by_cases hb : b < h.bufs.length
  · simp only [Heap.writeSlot, Heap.bufAt]
    exact getD_set_self _ _ _ _ hb
  · have hb' : h.bufs.length ≤ b := Nat.le_of_not_lt hb
    simp only [Heap.writeSlot, Heap.bufAt]
    rw [List.getD_eq_default _ _ (by simpa using hb'),
      List.getD_eq_default _ _ hb', List.set_nil]

theorem bufAt_len_writeSlot (h : Heap α) (b b' i : Nat) (x : Option α) :
    ((h.writeSlot b' i x).bufAt b).length = (h.bufAt b).length := by
  by_cases hb : b = b'
  · subst hb; rw [bufAt_writeSlot_self]; simp
  · rw [bufAt_writeSlot_ne _ _ _ _ _ hb]

theorem readSlot_writeSlot_self (h : Heap α) (b i : Nat) (x : Option α)
    (hi : i < (h.bufAt b).length) :
    (h.writeSlot b i x).readSlot b i = x := by
  simp only [Heap.readSlot, bufAt_writeSlot_self]
  exact getD_set_self _ _ _ _ hi

theorem readSlot_writeSlot_ne (h : Heap α) (b b' i j : Nat) (x : Option α)
    (hne : b ≠ b' ∨ i ≠ j) :
    (h.writeSlot b' j x).readSlot b i = h.readSlot b i := by
  rcases hne with hb | hij
  · simp only [Heap.readSlot, bufAt_writeSlot_ne h b b' j x hb]
  · by_cases hb : b = b'
    · subst hb
      simp only [Heap.readSlot, bufAt_writeSlot_self]
      exact getD_set_ne _ _ _ _ _ hij
    · simp only [Heap.readSlot, bufAt_writeSlot_ne h b b' j x hb]

theorem bufs_length_alloc (h : Heap α) (n : Nat) :
    (h.alloc n).1.bufs.length = h.bufs.length + 1 := by
  simp [Heap.alloc]

theorem bufAt_alloc_lt (h : Heap α) (n b : Nat) (hb : b < h.bufs.length) :
    (h.alloc n).1.bufAt b = h.bufAt b := by
  simp only [Heap.alloc, Heap.bufAt]
  exact List.getD_append _ _ _ _ hb

theorem bufAt_alloc_self (h : Heap α) (n : Nat) :
    (h.alloc n).1.bufAt h.bufs.length = List.replicate n none := by
  simp only [Heap.alloc, Heap.bufAt]
  rw [List.getD_append_right _ _ _ _ (Nat.le_refl _), Nat.sub_self]
  rfl

/-! ### Loop lemmas -/

theorem destructLoop_bufs_length (bb : Option Nat) (h : Heap α) (n : Nat) :
    (destructLoop bb h n).bufs.length = h.bufs.length := by
  induction n with
  | zero => rfl
  | succ n ih => cases bb <;> simp_all [destructLoop, bufs_length_writeSlot]

theorem destructLoop_bufAt_ne (bb : Option Nat) (h : Heap α) (n : Nat) (b : Nat)
    (hb : ∀ c ∈ bb, c ≠ b) : (destructLoop bb h n).bufAt b = h.bufAt b := by
  induction n with
  | zero => rfl
  | succ n ih =>
    cases bb with
    | none => simpa [destructLoop] using ih
    | some c =>
      have hc : c ≠ b := hb c rfl
      calc ((destructLoop (some c) h n).writeSlot c n none).bufAt b
          = (destructLoop (some c) h n).bufAt b :=
            bufAt_writeSlot_ne _ _ _ _ _ (Ne.symm hc)
        _ = h.bufAt b := ih

theorem copyLoop_bufs_length (src : Option Nat) (dst : Nat) (h : Heap α) (n : Nat) :
    (copyLoop src dst h n).bufs.length = h.bufs.length := by
  induction n with
  | zero => rfl
  | succ n ih => cases src <;> simp_all [copyLoop, copyStep, bufs_length_writeSlot]

theorem copyLoop_bufAt_ne (src : Option Nat) (dst : Nat) (h : Heap α) (n : Nat) (b : Nat)
    (hb : b ≠ dst) : (copyLoop src dst h n).bufAt b = h.bufAt b := by
  induction n with
  | zero => rfl
  | succ n ih =>
    cases src <;>
      simp_all [copyLoop, copyStep, bufAt_writeSlot_ne _ _ _ _ _ hb]

theorem copyLoop_bufAt_len (src : Option Nat) (dst : Nat) (h : Heap α) (n b : Nat) :
    ((copyLoop src dst h n).bufAt b).length = (h.bufAt b).length := by
  induction n with
  | zero => rfl
  | succ n ih => cases src <;> simp_all [copyLoop, copyStep, bufAt_len_writeSlot]

theorem copyLoop_readSlot_src (s dst : Nat) (h : Heap α) (hne : s ≠ dst) (n : Nat) :
    ∀ i, (copyLoop (some s) dst h n).readSlot s i = h.readSlot s i := by
  intro i
  simp [Heap.readSlot, copyLoop_bufAt_ne (some s) dst h n s hne]

theorem copyLoop_readSlot_dst (s dst : Nat) (h : Heap α) (hne : s ≠ dst) :
    ∀ n, n ≤ (h.bufAt dst).length →
      ∀ i, i < n → (copyLoop (some s) dst h n).readSlot dst i = h.readSlot s i := by
  intro n
  induction n with
  | zero => intro _ i hi; omega
  | succ n ih =>
    intro hn i hi
    show (copyStep (some s) dst (copyLoop (some s) dst h n) n).readSlot dst i
        = h.readSlot s i
    by_cases hin : i = n
    · subst hin
      show (Heap.writeSlot _ dst i _).readSlot dst i = h.readSlot s i
      rw [readSlot_writeSlot_self _ _ _ _ (by rw [copyLoop_bufAt_len]; omega)]
      exact copyLoop_readSlot_src s dst h hne i i
    · show (Heap.writeSlot _ dst n _).readSlot dst i = h.readSlot s i
      rw [readSlot_writeSlot_ne _ _ _ _ _ _ (Or.inr hin)]
      exact ih (by omega) i (by omega)

theorem moveLoop_bufs_length (src : Option Nat) (dst : Nat) (h : Heap α) (n : Nat) :
    (moveLoop src dst h n).bufs.length = h.bufs.length := by
  induction n with
  | zero => rfl
  | succ n ih => cases src <;> simp_all [moveLoop, moveStep, bufs_length_writeSlot]

theorem moveLoop_bufAt_ne (src : Option Nat) (dst : Nat) (h : Heap α) (n : Nat) (b : Nat)
    (hbs : ∀ c ∈ src, c ≠ b) (hbd : b ≠ dst) :
    (moveLoop src dst h n).bufAt b = h.bufAt b := by
  induction n with
  | zero => rfl
  | succ n ih =>
    cases src with
    | none => simpa [moveLoop, moveStep, bufAt_writeSlot_ne _ _ _ _ _ hbd] using ih
    | some s =>
      have hs : s ≠ b := hbs s rfl
      show (((moveLoop (some s) dst h n).writeSlot dst n _).writeSlot s n none).bufAt b
          = h.bufAt b
      rw [bufAt_writeSlot_ne _ _ _ _ _ (Ne.symm hs), bufAt_writeSlot_ne _ _ _ _ _ hbd, ih]

theorem moveLoop_bufAt_len (src : Option Nat) (dst : Nat) (h : Heap α) (n b : Nat) :
    ((moveLoop src dst h n).bufAt b).length = (h.bufAt b).length := by
  induction n with
  | zero => rfl
  | succ n ih => cases src <;> simp_all [moveLoop, moveStep, bufAt_len_writeSlot]

theorem moveLoop_readSlot_src_ge (s dst : Nat) (h : Heap α) (hne : s ≠ dst) (n : Nat) :
    ∀ i, n ≤ i → (moveLoop (some s) dst h n).readSlot s i = h.readSlot s i := by
  induction n with
  | zero => intro i _; rfl
  | succ n ih =>
    intro i hi
    show (((moveLoop (some s) dst h n).writeSlot dst n _).writeSlot s n none).readSlot s i
        = h.readSlot s i
    rw [readSlot_writeSlot_ne _ _ _ _ _ _ (Or.inr (by omega)),
      readSlot_writeSlot_ne _ _ _ _ _ _ (Or.inl hne)]
    exact ih i (by omega)

theorem moveLoop_readSlot_dst (s dst : Nat) (h : Heap α) (hne : s ≠ dst) :
    ∀ n, n ≤ (h.bufAt dst).length →
      ∀ i, i < n → (moveLoop (some s) dst h n).readSlot dst i = h.readSlot s i := by
  intro n
  induction n with
  | zero => intro _ i hi; omega
  | succ n ih =>
    intro hn i hi
    show (((moveLoop (some s) dst h n).writeSlot dst n _).writeSlot s n none).readSlot dst i
        = h.readSlot s i
    rw [readSlot_writeSlot_ne _ _ _ _ _ _ (Or.inl (Ne.symm hne))]
    by_cases hin : i = n
    · subst hin
      rw [readSlot_writeSlot_self _ _ _ _ (by rw [moveLoop_bufAt_len]; omega)]
      exact moveLoop_readSlot_src_ge s dst h hne i i (Nat.le_refl i)
    · rw [readSlot_writeSlot_ne _ _ _ _ _ _ (Or.inr hin)]
      exact ih (by omega) i (by omega)

theorem writeElem_bufs_length (h : Heap α) (v : Vector) (i : Nat) (x : Option α) :
    (writeElem h v i x).bufs.length = h.bufs.length := by
  cases hd : v.data_ <;> simp [writeElem, hd, bufs_length_writeSlot]

theorem writeElem_bufAt_ne (h : Heap α) (v : Vector) (i : Nat) (x : Option α) (b : Nat)
    (hb : ∀ c ∈ v.data_, c ≠ b) : (writeElem h v i x).bufAt b = h.bufAt b := by
  cases hd : v.data_ with
  | none => simp [writeElem, hd]
  | some c =>
    have hc : c ≠ b := hb c (by simp [hd])
    simp [writeElem, hd, bufAt_writeSlot_ne _ _ _ _ _ (Ne.symm hc)]

/-! ### Operation-level lemmas -/

theorem lt_new_capacity (c : Nat) : c < new_capacity c := by
  unfold new_capacity; split <;> omega

theorem readElem_set_size (h : Heap α) (v : Vector) (k i : Nat) :
    readElem h { v with size_ := k } i = readElem h v i := by
  cases hd : v.data_ <;> simp [readElem, hd]

theorem reserve_spec (h : Heap α) (v : Vector) (n : Nat) (hv : Valid h v)
    (hgrow : v.capacity_ < n) :
    Valid (reserve h v n).1 (reserve h v n).2 ∧
    (reserve h v n).2.size_ = v.size_ ∧
    (reserve h v n).2.capacity_ = n ∧
    (reserve h v n).2.data_ = some h.bufs.length ∧
    (reserve h v n).1.bufs.length = h.bufs.length + 1 ∧
    (∀ i, i < v.size_ → readElem (reserve h v n).1 (reserve h v n).2 i = readElem h v i) ∧
    (∀ b, b < h.bufs.length → (∀ c ∈ v.data_, c ≠ b) →
      (reserve h v n).1.bufAt b = h.bufAt b) := by
  obtain ⟨⟨hsc, hiff⟩, hbuf⟩ := hv
  have hnle : ¬ n ≤ v.capacity_ := by omega
  have hres : reserve h v n
      = (moveLoop v.data_ (h.alloc n).2 (h.alloc n).1 v.size_,
         { v with data_ := some (h.alloc n).2, capacity_ := n }) := by
    rw [reserve, if_neg hnle]
  have halloc2 : (h.alloc n).2 = h.bufs.length := rfl
  have hlen1 : (h.alloc n).1.bufs.length = h.bufs.length + 1 := bufs_length_alloc h n
  have hfreshbuf : (h.alloc n).1.bufAt h.bufs.length = List.replicate n none :=
    bufAt_alloc_self h n
  have hfreshlen : ((h.alloc n).1.bufAt h.bufs.length).length = n := by
    rw [hfreshbuf]; simp
  cases hd : v.data_ with
  | none =>
    have hc0 : v.capacity_ = 0 := hiff.mp hd
    have hs0 : v.size_ = 0 := by omega
    rw [hres, hd, hs0, halloc2]
    refine ⟨⟨⟨by simp, by simp; omega⟩, ?_⟩, by simp, by simp, by simp,
      hlen1, ?_, ?_⟩
    · intro b hb
      simp only [Option.mem_def, Option.some.injEq] at hb
      subst hb
      simp only [moveLoop]
      exact ⟨by omega, by rw [hfreshbuf]; simp⟩
    · intro i hi; omega
    · intro b hb _
      simp only [moveLoop]
      exact bufAt_alloc_lt h n b hb
  | some s =>
    obtain ⟨hsL, hslen⟩ := hbuf s (by simp [hd])
    have hsne : s ≠ h.bufs.length := by omega
    have hkeep : (h.alloc n).1.bufAt s = h.bufAt s := bufAt_alloc_lt h n s hsL
    have hsize_le : v.size_ ≤ ((h.alloc n).1.bufAt h.bufs.length).length := by
      rw [hfreshlen]; omega
    rw [hres, hd, halloc2]
    refine ⟨⟨⟨by simp; omega, by simp; omega⟩, ?_⟩, by simp, by simp, by simp,
      ?_, ?_, ?_⟩
    · intro b hb
      simp only [Option.mem_def, Option.some.injEq] at hb
      subst hb
      constructor
      · rw [moveLoop_bufs_length, hlen1]; omega
      · simp only [moveLoop_bufAt_len]
        rw [hfreshlen]
    · rw [moveLoop_bufs_length, hlen1]
    · intro i hi
      have h1 := moveLoop_readSlot_dst s h.bufs.length (h.alloc n).1 hsne v.size_
        hsize_le i hi
      simp only [readElem, hd]
      rw [h1]
      simp only [Heap.readSlot, hkeep]
    · intro b hb hcb
      have hsb : s ≠ b := hcb s (by simp [hd])
      rw [moveLoop_bufAt_ne _ _ _ _ _ (by simpa using hsb) (by omega),
        bufAt_alloc_lt h n b hb]

theorem push_tail_spec (h1 : Heap α) (v1 : Vector) (x : α) (hv1 : Valid h1 v1)
    (hroom : v1.size_ < v1.capacity_) :
    Valid (writeElem h1 v1 v1.size_ (some x)) { v1 with size_ := v1.size_ + 1 } ∧
    (∀ i, i ≠ v1.size_ →
      readElem (writeElem h1 v1 v1.size_ (some x)) { v1 with size_ := v1.size_ + 1 } i
        = readElem h1 v1 i) ∧
    readElem (writeElem h1 v1 v1.size_ (some x)) { v1 with size_ := v1.size_ + 1 } v1.size_
      = some x := by
  obtain ⟨⟨hsc, hiff⟩, hbuf⟩ := hv1
  have hcpos : 0 < v1.capacity_ := by omega
  cases hd : v1.data_ with
  | none => exact absurd (hiff.mp hd) (by omega)
  | some b =>
    obtain ⟨hbL, hblen⟩ := hbuf b (by simp [hd])
    have hwe : writeElem h1 v1 v1.size_ (some x) = h1.writeSlot b v1.size_ (some x) := by
      rw [writeElem, hd]
    refine ⟨⟨⟨by simp; omega, by simp [hd]; omega⟩, ?_⟩, ?_, ?_⟩
    · intro c hc
      simp only [Option.mem_def, Option.some.injEq] at hc
      subst hc
      rw [hwe]
      constructor
      · rw [bufs_length_writeSlot]; exact hbL
      · simp only [bufAt_len_writeSlot]; simpa using hblen
    · intro i hi
      rw [hwe]
      simp only [readElem, hd]
      exact readSlot_writeSlot_ne _ _ _ _ _ _ (Or.inr hi)
    · rw [hwe]
      simp only [readElem, hd]
      exact readSlot_writeSlot_self _ _ _ _ (by omega)

theorem push_back_spec (h : Heap α) (v : Vector) (x : α) (hv : Valid h v) :
    Valid (push_back h v x).1 (push_back h v x).2 ∧
    (push_back h v x).2.size_ = v.size_ + 1 ∧
    (∀ i, i < v.size_ →
      readElem (push_back h v x).1 (push_back h v x).2 i = readElem h v i) ∧
    readElem (push_back h v x).1 (push_back h v x).2 v.size_ = some x := by
  by_cases hsc : v.size_ = v.capacity_
  · obtain ⟨rv, rsz, rcap, _, _, relts, _⟩ :=
      reserve_spec h v (new_capacity v.capacity_) hv (lt_new_capacity _)
    have hroom : (reserve h v (new_capacity v.capacity_)).2.size_
        < (reserve h v (new_capacity v.capacity_)).2.capacity_ := by
      rw [rsz, rcap, hsc]; exact lt_new_capacity _
    obtain ⟨tv, tpres, tnew⟩ :=
      push_tail_spec (reserve h v (new_capacity v.capacity_)).1
        (reserve h v (new_capacity v.capacity_)).2 x rv hroom
    have hpb : push_back h v x
        = (writeElem (reserve h v (new_capacity v.capacity_)).1
            (reserve h v (new_capacity v.capacity_)).2
            (reserve h v (new_capacity v.capacity_)).2.size_ (some x),
           { (reserve h v (new_capacity v.capacity_)).2 with
              size_ := (reserve h v (new_capacity v.capacity_)).2.size_ + 1 }) := by
      rw [push_back, if_pos hsc]
    rw [hpb]
    refine ⟨tv, by simp [rsz], ?_, ?_⟩
    · intro i hi
      rw [tpres i (by omega), relts i hi]
    · rw [← rsz]; exact tnew
  · have hroom : v.size_ < v.capacity_ := by
      obtain ⟨⟨h1, _⟩, _⟩ := hv; omega
    obtain ⟨tv, tpres, tnew⟩ := push_tail_spec h v x hv hroom
    have hpb : push_back h v x
        = (writeElem h v v.size_ (some x), { v with size_ := v.size_ + 1 }) := by
      rw [push_back, if_neg hsc]
    rw [hpb]
    exact ⟨tv, by simp, fun i hi => tpres i (by omega), tnew⟩

/-! ### Push sequences: representation predicate -/

/-- The instance (h, v) holds exactly the elements of xs, in order. -/
def Models (h : Heap α) (v : Vector) (xs : List α) : Prop :=
  Valid h v ∧ v.size_ = xs.length ∧
  ∀ (i : Nat) (hi : i < xs.length), readElem h v i = some (xs.get ⟨i, hi⟩)

theorem mkVector_models (h : Heap α) : Models h mkVector [] := by
  refine ⟨⟨⟨Nat.le_refl 0, by simp [mkVector]⟩, ?_⟩, rfl, ?_⟩
  · intro b hb; cases hb
  · intro i hi; cases hi

theorem push_back_models (h : Heap α) (v : Vector) (ys : List α) (x : α)
    (hm : Models h v ys) :
    Models (push_back h v x).1 (push_back h v x).2 (ys ++ [x]) := by
  obtain ⟨hv, hsz, helts⟩ := hm
  obtain ⟨pv, psz, ppres, pnew⟩ := push_back_spec h v x hv
  refine ⟨pv, by simp [psz, hsz], ?_⟩
  intro i hi
  rcases Nat.lt_or_ge i ys.length with hlt | hge
  · rw [ppres i (by omega), helts i hlt]
    congr 1
    simp only [List.get_eq_getElem]
    exact (List.getElem_append_left hlt).symm
  · have hiys : i = ys.length := by simp at hi; omega
    subst hiys
    rw [hsz] at pnew
    rw [pnew]
    congr 1
    simp only [List.get_eq_getElem]
    exact (List.getElem_concat_length ys x ys.length rfl (by simp)).symm

theorem pushAll_models (xs : List α) :
    ∀ (h : Heap α) (v : Vector) (ys : List α), Models h v ys →
      Models (pushAll (h, v) xs).1 (pushAll (h, v) xs).2 (ys ++ xs) := by
  induction xs with
  | nil => intro h v ys hm; simpa [pushAll] using hm
  | cons x xs ih =>
    intro h v ys hm
    have h2 := ih (push_back h v x).1 (push_back h v x).2 (ys ++ [x])
      (push_back_models h v ys x hm)
    have hfold : pushAll (h, v) (x :: xs) = pushAll (push_back h v x) xs := rfl
    rw [hfold]
    simpa using h2

/-! ### Claim theorems -/

/-- C1. For every finite sequence of values pushed by push_back into a
default-constructed Vector, afterwards size() equals the number of
pushes and the indexed read at each i returns the i-th pushed value:
the elements appear exactly in push order. -/
theorem pushAll_size_and_order (h : Heap α) (xs : List α) :
    size (pushAll (h, mkVector) xs).2 = xs.length ∧
    ∀ (i : Nat) (hi : i < xs.length),
      readIdx (pushAll (h, mkVector) xs).1 (pushAll (h, mkVector) xs).2 i
        = some (xs.get ⟨i, hi⟩) := by
  obtain ⟨_, hsz, helts⟩ := pushAll_models xs h mkVector [] (mkVector_models h)
  refine ⟨?_, ?_⟩
  · simpa [size] using hsz
  · intro i hi
    simpa [readIdx] using helts i (by simpa using hi)

/-- Witness for C1: pushing 10, 20, 30 into an empty Vector on the empty
heap gives size 3 and readIdx 1 returns 20. -/
theorem pushAll_size_and_order_witness :
    size (pushAll ((⟨[]⟩ : Heap Nat), mkVector) [10, 20, 30]).2 = 3 ∧
    readIdx (pushAll ((⟨[]⟩ : Heap Nat), mkVector) [10, 20, 30]).1
      (pushAll ((⟨[]⟩ : Heap Nat), mkVector) [10, 20, 30]).2 1 = some 20 :=
  ⟨(pushAll_size_and_order (⟨[]⟩ : Heap Nat) [10, 20, 30]).1,
   (pushAll_size_and_order (⟨[]⟩ : Heap Nat) [10, 20, 30]).2 1 (by decide)⟩

/-- The capacity reached after the k-th growth event when growth starts
from capacity 0 and each growth applies the doubling policy of
push_back. -/
def capAfterGrowth : Nat → Nat
  | 0 => 0
  | k + 1 => new_capacity (capAfterGrowth k)

/-- C2. The doubling law: a push_back that finds size_ = capacity_ grows
the capacity to exactly new_capacity (1 if the capacity was 0, twice the
capacity otherwise); a push_back that does not find size_ = capacity_
leaves the capacity unchanged; hence starting from capacity 0 the k-th
growth event leaves capacity 2^(k-1). -/
theorem push_back_doubling_law :
    (∀ (h : Heap α) (v : Vector) (x : α), v.size_ = v.capacity_ →
      capacity (push_back h v x).2 = new_capacity v.capacity_) ∧
    (∀ (h : Heap α) (v : Vector) (x : α), v.size_ ≠ v.capacity_ →
      capacity (push_back h v x).2 = v.capacity_) ∧
    (∀ k, 1 ≤ k → capAfterGrowth k = 2 ^ (k - 1)) := by
  refine ⟨?_, ?_, ?_⟩
  · intro h v x hsc
    have hlt : ¬ new_capacity v.capacity_ ≤ v.capacity_ := by
      have := lt_new_capacity v.capacity_; omega
    simp [push_back, hsc, reserve, hlt, capacity]
  · intro h v x hsc
    simp [push_back, hsc, capacity]
  · intro k hk
    induction k with
    | zero => omega
    | succ k ih =>
      cases Nat.eq_zero_or_pos k with
      | inl h0 => subst h0; rfl
      | inr hpos =>
        have hik := ih hpos
        have h2 : 2 ^ (k - 1) ≠ 0 := by positivity
        calc capAfterGrowth (k + 1) = new_capacity (capAfterGrowth k) := rfl
          _ = 2 ^ (k - 1) * 2 := by rw [hik, new_capacity, if_neg h2]
          _ = 2 ^ (k + 1 - 1) := by
              rw [← pow_succ]
              congr 1
              omega

/-- Witness for C2: a full Vector of size = capacity = 2 grows to
capacity 4 on the next push; a Vector with size 1 < capacity 2 keeps
capacity 2; the third growth event yields capacity 4 = 2^2. -/
theorem push_back_doubling_law_witness :
    capacity (push_back (⟨[[some 7, some 8]]⟩ : Heap Nat) ⟨some 0, 2, 2⟩ 9).2
      = new_capacity 2 ∧
    capacity (push_back (⟨[[some 7, none]]⟩ : Heap Nat) ⟨some 0, 1, 2⟩ 9).2 = 2 ∧
    capAfterGrowth 3 = 2 ^ 2 :=
  ⟨(push_back_doubling_law (α := Nat)).1 _ _ _ (by decide),
   (push_back_doubling_law (α := Nat)).2.1 _ _ _ (by decide),
   (push_back_doubling_law (α := Nat)).2.2 3 (by decide)⟩

/-- C3. reserve(n) with n ≤ capacity() changes nothing at all (heap and
record are returned untouched); with n > capacity() it sets capacity()
to exactly n, leaves size() unchanged and preserves the value and index
order of the first size() elements. -/
theorem reserve_noop_or_grow (h : Heap α) (v : Vector) (n : Nat) (hv : Valid h v) :
    (n ≤ v.capacity_ → reserve h v n = (h, v)) ∧
    (v.capacity_ < n →
      capacity (reserve h v n).2 = n ∧
      size (reserve h v n).2 = v.size_ ∧
      ∀ i, i < v.size_ →
        readIdx (reserve h v n).1 (reserve h v n).2 i = readIdx h v i) := by
  constructor
  · intro hle
    rw [reserve, if_pos hle]
  · intro hgt
    obtain ⟨_, rsz, rcap, _, _, relts, _⟩ := reserve_spec h v n hv hgt
    exact ⟨rcap, rsz, fun i hi => by simpa [readIdx] using relts i hi⟩

/-- Witness for C3: on a Vector of size 1, capacity 2, reserve(2) is a
complete no-op, while reserve(5) gives capacity 5 and keeps element 0. -/
theorem reserve_noop_or_grow_witness :
    reserve (⟨[[some 1, none]]⟩ : Heap Nat) ⟨some 0, 1, 2⟩ 2
      = ((⟨[[some 1, none]]⟩ : Heap Nat), (⟨some 0, 1, 2⟩ : Vector)) ∧
    capacity (reserve (⟨[[some 1, none]]⟩ : Heap Nat) ⟨some 0, 1, 2⟩ 5).2 = 5 ∧
    readIdx (reserve (⟨[[some 1, none]]⟩ : Heap Nat) ⟨some 0, 1, 2⟩ 5).1
        (reserve (⟨[[some 1, none]]⟩ : Heap Nat) ⟨some 0, 1, 2⟩ 5).2 0
      = readIdx (⟨[[some 1, none]]⟩ : Heap Nat) ⟨some 0, 1, 2⟩ 0 :=
  ⟨(reserve_noop_or_grow (⟨[[some 1, none]]⟩ : Heap Nat) ⟨some 0, 1, 2⟩ 2
      (by decide)).1 (by decide),
   ((reserve_noop_or_grow (⟨[[some 1, none]]⟩ : Heap Nat) ⟨some 0, 1, 2⟩ 5
      (by decide)).2 (by decide)).1,
   ((reserve_noop_or_grow (⟨[[some 1, none]]⟩ : Heap Nat) ⟨some 0, 1, 2⟩ 5
      (by decide)).2 (by decide)).2.2 0 (by decide)⟩

/-- C6 (the code violates the claim): on a default-constructed Vector a
reserve(5) in which malloc returns nullptr runs to completion, returns
normally (no failure is reported anywhere) and leaves capacity_ = 5 with
data_ = nullptr — the container state is mutated by the failed growth
and the state invariant (nullptr iff capacity 0) is broken, contrary to
the claim's strong failure safety. -/
theorem reserve_oom_mutates_state :
    (reserveNullAlloc (⟨[]⟩ : Heap Nat) mkVector 5).2.capacity_ = 5 ∧
    (reserveNullAlloc (⟨[]⟩ : Heap Nat) mkVector 5).2.data_ = none ∧
    (reserveNullAlloc (⟨[]⟩ : Heap Nat) mkVector 5).2 ≠ mkVector ∧
    ¬ StateInv (reserveNullAlloc (⟨[]⟩ : Heap Nat) mkVector 5).2 :=
  ⟨rfl, rfl, by decide, by decide⟩

/-- C7. pop_back on a nonempty Vector destructs exactly the element at
index size()-1 (that slot of the owned buffer becomes unconstructed) and
decrements size_ by one, leaving capacity_, the owned pointer, every
other element and every other buffer unchanged; pop_back on an empty
Vector is a silent no-op: it returns normally with heap and record
untouched. -/
theorem pop_back_behavior (h : Heap α) (v : Vector) (hv : Valid h v) :
    (0 < v.size_ →
      (pop_back h v).2.size_ = v.size_ - 1 ∧
      (pop_back h v).2.capacity_ = v.capacity_ ∧
      (pop_back h v).2.data_ = v.data_ ∧
      readElem (pop_back h v).1 (pop_back h v).2 (v.size_ - 1) = none ∧
      (∀ i, i ≠ v.size_ - 1 →
        readElem (pop_back h v).1 (pop_back h v).2 i = readElem h v i) ∧
      (∀ b, (∀ c ∈ v.data_, c ≠ b) → (pop_back h v).1.bufAt b = h.bufAt b)) ∧
    (v.size_ = 0 → pop_back h v = (h, v)) := by
  obtain ⟨⟨hsc, hiff⟩, hbuf⟩ := hv
  constructor
  · intro hpos
    have hcpos : 0 < v.capacity_ := by omega
    cases hd : v.data_ with
    | none => exact absurd (hiff.mp hd) (by omega)
    | some b =>
      obtain ⟨hbL, hblen⟩ := hbuf b (by simp [hd])
      have hpb : pop_back h v
          = (writeElem h v (v.size_ - 1) none, { v with size_ := v.size_ - 1 }) := by
        rw [pop_back, if_pos hpos]
      have hwe : writeElem h v (v.size_ - 1) none
          = h.writeSlot b (v.size_ - 1) none := by
        rw [writeElem, hd]
      rw [hpb]
      refine ⟨rfl, rfl, by simp [hd], ?_, ?_, ?_⟩
      · simp only [readElem, hd, hwe]
        exact readSlot_writeSlot_self _ _ _ _ (by omega)
      · intro i hi
        simp only [readElem, hd, hwe]
        exact readSlot_writeSlot_ne _ _ _ _ _ _ (Or.inr hi)
      · intro bb hbb
        rw [hwe]
        exact bufAt_writeSlot_ne _ _ _ _ _ (Ne.symm (hbb b (by simp [hd])))
  · intro h0
    rw [pop_back, if_neg (by omega)]

/-- Witness for C7: popping a Vector of size 1 empties it and destructs
slot 0; popping an empty default-constructed Vector changes nothing. -/
theorem pop_back_behavior_witness :
    (pop_back (⟨[[some 5, none]]⟩ : Heap Nat) ⟨some 0, 1, 2⟩).2.size_ = 0 ∧
    readElem (pop_back (⟨[[some 5, none]]⟩ : Heap Nat) ⟨some 0, 1, 2⟩).1
      (pop_back (⟨[[some 5, none]]⟩ : Heap Nat) ⟨some 0, 1, 2⟩).2 0 = none ∧
    pop_back (⟨[]⟩ : Heap Nat) mkVector = ((⟨[]⟩ : Heap Nat), mkVector) :=
  ⟨((pop_back_behavior (⟨[[some 5, none]]⟩ : Heap Nat) ⟨some 0, 1, 2⟩
      (by decide)).1 (by decide)).1,
   ((pop_back_behavior (⟨[[some 5, none]]⟩ : Heap Nat) ⟨some 0, 1, 2⟩
      (by decide)).1 (by decide)).2.2.2.1,
   (pop_back_behavior (⟨[]⟩ : Heap Nat) mkVector (by decide)).2 (by decide)⟩

/-- C9 (the code violates the claim): the guard-acquisition sequence of
the cross-instance operations is destination instance first, then source
instance — copying instance 0 into instance 1 locks 1 then 0, while
copying instance 1 into instance 0 locks 0 then 1 — so the order in
which the two locks of the pair of identities 0 and 1 are taken depends
on which instance is the destination and is not fixed by any total order
on instance identity; each of the two concurrent copies takes its first
lock and then needs the lock the other holds (circular wait), so the
claimed deadlock freedom fails. -/
theorem copy_lock_order_destination_first :
    copyLockOrder 1 0 = [1, 0] ∧ copyLockOrder 0 1 = [0, 1] ∧
    copyLockOrder 0 1 ≠ copyLockOrder 1 0 ∧
    (copyLockOrder 0 1).head? = (copyLockOrder 1 0).getLast? ∧
    (copyLockOrder 1 0).head? = (copyLockOrder 0 1).getLast? :=
  ⟨rfl, rfl, by decide, rfl, rfl⟩

/-- C10. Self-assignment is an identity: when this == &other, both the
copy assignment and the move assignment operator return with the heap
and the record completely untouched — no element is destructed, no
buffer is released, nothing is copied or moved. -/
theorem self_assign_identity (h : Heap α) (v : Vector) :
    copyAssign h v v true = (h, v) ∧ moveAssign h v v true = (h, v, v) :=
  ⟨rfl, rfl⟩

/-- C4. Move construction transfers the source's buffer pointer, size
and capacity to the new instance without touching the heap at all (so no
element is copied), and leaves the source with size 0, capacity 0 and a
null buffer; move assignment between distinct instances (whose buffers,
being exclusively owned, do not alias) transfers the same three fields,
destructs only the destination's old elements, never reads or writes the
source's buffer, and leaves the source in the same empty state. -/
theorem move_transfers_and_empties_source (h : Heap α) (A self : Vector)
    (hdisj : ∀ b ∈ self.data_, ∀ c ∈ A.data_, b ≠ c) :
    (moveCtor h A).1 = h ∧
    (moveCtor h A).2.1.data_ = A.data_ ∧
    (moveCtor h A).2.1.size_ = A.size_ ∧
    (moveCtor h A).2.1.capacity_ = A.capacity_ ∧
    (∀ i, readElem (moveCtor h A).1 (moveCtor h A).2.1 i = readElem h A i) ∧
    (moveCtor h A).2.2 = mkVector ∧
    (moveAssign h self A false).2.1.data_ = A.data_ ∧
    (moveAssign h self A false).2.1.size_ = A.size_ ∧
    (moveAssign h self A false).2.1.capacity_ = A.capacity_ ∧
    (∀ b ∈ A.data_, (moveAssign h self A false).1.bufAt b = h.bufAt b) ∧
    (∀ i, readElem (moveAssign h self A false).1 (moveAssign h self A false).2.1 i
        = readElem h A i) ∧
    (moveAssign h self A false).2.2 = mkVector := by
  have hpres : ∀ b ∈ A.data_,
      (destructLoop self.data_ h self.size_).bufAt b = h.bufAt b := by
    intro b hb
    exact destructLoop_bufAt_ne _ _ _ _ (fun c hc => hdisj c hc b hb)
  refine ⟨rfl, rfl, rfl, rfl, ?_, rfl, rfl, rfl, rfl, hpres, ?_, rfl⟩
  · intro i
    cases hd : A.data_ <;> simp [readElem, hd, moveCtor]
  · intro i
    cases hd : A.data_ with
    | none => simp [readElem, hd, moveAssign]
    | some a =>
      have hba : (destructLoop self.data_ h self.size_).bufAt a = h.bufAt a :=
        hpres a (by simp [hd])
      simp only [moveAssign, Bool.false_eq_true, if_false, readElem, hd, Heap.readSlot,
        hba]

/-- Witness for C4: moving a populated source (one element, value 4)
into a destination that owns a disjoint one-element buffer transfers
size 1 and element 4 and empties the source. -/
theorem move_transfers_and_empties_source_witness :
    (moveAssign (⟨[[some 3], [some 4, none]]⟩ : Heap Nat) ⟨some 0, 1, 1⟩
        ⟨some 1, 1, 2⟩ false).2.1.size_ = 1 ∧
    readElem (moveAssign (⟨[[some 3], [some 4, none]]⟩ : Heap Nat) ⟨some 0, 1, 1⟩
        ⟨some 1, 1, 2⟩ false).1
      (moveAssign (⟨[[some 3], [some 4, none]]⟩ : Heap Nat) ⟨some 0, 1, 1⟩
        ⟨some 1, 1, 2⟩ false).2.1 0
      = readElem (⟨[[some 3], [some 4, none]]⟩ : Heap Nat) ⟨some 1, 1, 2⟩ 0 ∧
    (moveAssign (⟨[[some 3], [some 4, none]]⟩ : Heap Nat) ⟨some 0, 1, 1⟩
        ⟨some 1, 1, 2⟩ false).2.2 = mkVector :=
  ⟨(move_transfers_and_empties_source (⟨[[some 3], [some 4, none]]⟩ : Heap Nat)
      ⟨some 1, 1, 2⟩ ⟨some 0, 1, 1⟩ (by decide)).2.2.2.2.2.2.2.1,
   (move_transfers_and_empties_source (⟨[[some 3], [some 4, none]]⟩ : Heap Nat)
      ⟨some 1, 1, 2⟩ ⟨some 0, 1, 1⟩ (by decide)).2.2.2.2.2.2.2.2.2.2.1 0,
   (move_transfers_and_empties_source (⟨[[some 3], [some 4, none]]⟩ : Heap Nat)
      ⟨some 1, 1, 2⟩ ⟨some 0, 1, 1⟩ (by decide)).2.2.2.2.2.2.2.2.2.2.2⟩

/-! ### Buffer-avoidance: mutations of one instance never touch a
buffer it does not own -/

theorem reserve_avoid (h : Heap α) (v : Vector) (n a : Nat)
    (ha : a < h.bufs.length) (hd : ∀ c ∈ v.data_, c ≠ a) :
    a < (reserve h v n).1.bufs.length ∧
    (∀ c ∈ (reserve h v n).2.data_, c ≠ a) ∧
    (reserve h v n).1.bufAt a = h.bufAt a := by
  by_cases hle : n ≤ v.capacity_
  · rw [reserve, if_pos hle]
    exact ⟨ha, hd, rfl⟩
  · have hres : reserve h v n
        = (moveLoop v.data_ h.bufs.length (h.alloc n).1 v.size_,
           { v with data_ := some h.bufs.length, capacity_ := n }) := by
      rw [reserve, if_neg hle]; rfl
    rw [hres]
    have hmlen : (moveLoop v.data_ h.bufs.length (h.alloc n).1 v.size_).bufs.length
        = h.bufs.length + 1 := by
      rw [moveLoop_bufs_length, bufs_length_alloc]
    refine ⟨?_, ?_, ?_⟩
    · show a < (moveLoop v.data_ h.bufs.length (h.alloc n).1 v.size_).bufs.length
      omega
    · intro c hc
      simp only [Option.mem_def, Option.some.injEq] at hc
      subst hc; omega
    · show (moveLoop v.data_ h.bufs.length (h.alloc n).1 v.size_).bufAt a = h.bufAt a
      rw [moveLoop_bufAt_ne _ _ _ _ _ hd (by omega), bufAt_alloc_lt _ _ _ ha]

theorem push_back_avoid (h : Heap α) (v : Vector) (x : α) (a : Nat)
    (ha : a < h.bufs.length) (hd : ∀ c ∈ v.data_, c ≠ a) :
    a < (push_back h v x).1.bufs.length ∧
    (∀ c ∈ (push_back h v x).2.data_, c ≠ a) ∧
    (push_back h v x).1.bufAt a = h.bufAt a := by
  by_cases hsc : v.size_ = v.capacity_
  · have hpb : push_back h v x
        = (writeElem (reserve h v (new_capacity v.capacity_)).1
             (reserve h v (new_capacity v.capacity_)).2
             (reserve h v (new_capacity v.capacity_)).2.size_ (some x),
           { (reserve h v (new_capacity v.capacity_)).2 with
              size_ := (reserve h v (new_capacity v.capacity_)).2.size_ + 1 }) := by
      rw [push_back, if_pos hsc]
    obtain ⟨r1, r2, r3⟩ := reserve_avoid h v (new_capacity v.capacity_) a ha hd
    rw [hpb]
    refine ⟨by rw [writeElem_bufs_length]; exact r1, ?_, ?_⟩
    · intro c hc
      simp only at hc
      exact r2 c hc
    · rw [writeElem_bufAt_ne _ _ _ _ _ r2, r3]
  · have hpb : push_back h v x
        = (writeElem h v v.size_ (some x), { v with size_ := v.size_ + 1 }) := by
      rw [push_back, if_neg hsc]
    rw [hpb]
    refine ⟨by rw [writeElem_bufs_length]; exact ha, ?_,
      writeElem_bufAt_ne _ _ _ _ _ hd⟩
    intro c hc
    simp only at hc
    exact hd c hc

theorem applyMut_avoid (s : Heap α × Vector) (m : Mut α) (a : Nat)
    (ha : a < s.1.bufs.length) (hd : ∀ c ∈ s.2.data_, c ≠ a) :
    a < (applyMut s m).1.bufs.length ∧
    (∀ c ∈ (applyMut s m).2.data_, c ≠ a) ∧
    (applyMut s m).1.bufAt a = s.1.bufAt a := by
  cases m with
  | push x => exact push_back_avoid s.1 s.2 x a ha hd
  | pop =>
    show a < (pop_back s.1 s.2).1.bufs.length ∧
      (∀ c ∈ (pop_back s.1 s.2).2.data_, c ≠ a) ∧
      (pop_back s.1 s.2).1.bufAt a = s.1.bufAt a
    by_cases hpos : 0 < s.2.size_
    · have hpp : pop_back s.1 s.2
          = (writeElem s.1 s.2 (s.2.size_ - 1) none,
             { s.2 with size_ := s.2.size_ - 1 }) := by
        rw [pop_back, if_pos hpos]
      rw [hpp]
      refine ⟨by rw [writeElem_bufs_length]; exact ha, ?_,
        writeElem_bufAt_ne _ _ _ _ _ hd⟩
      intro c hc
      simp only at hc
      exact hd c hc
    · rw [pop_back, if_neg hpos]
      exact ⟨ha, hd, rfl⟩
  | write i x =>
    show a < (writeIdx s.1 s.2 i x).bufs.length ∧
      (∀ c ∈ s.2.data_, c ≠ a) ∧ (writeIdx s.1 s.2 i x).bufAt a = s.1.bufAt a
    exact ⟨by rw [writeIdx, writeElem_bufs_length]; exact ha, hd,
      by rw [writeIdx]; exact writeElem_bufAt_ne _ _ _ _ _ hd⟩

theorem applyMuts_avoid (ms : List (Mut α)) :
    ∀ (s : Heap α × Vector) (a : Nat), a < s.1.bufs.length →
      (∀ c ∈ s.2.data_, c ≠ a) →
      a < (applyMuts s ms).1.bufs.length ∧
      (∀ c ∈ (applyMuts s ms).2.data_, c ≠ a) ∧
      (applyMuts s ms).1.bufAt a = s.1.bufAt a := by
  induction ms with
  | nil => intro s a h1 h2; exact ⟨h1, h2, rfl⟩
  | cons m ms ih =>
    intro s a h1 h2
    obtain ⟨g1, g2, g3⟩ := applyMut_avoid s m a h1 h2
    obtain ⟨k1, k2, k3⟩ := ih (applyMut s m) a g1 g2
    have hfold : applyMuts s (m :: ms) = applyMuts (applyMut s m) ms := rfl
    rw [hfold]
    exact ⟨k1, k2, by rw [k3, g3]⟩

theorem copyCtor_spec (h : Heap α) (A : Vector) (hv : Valid h A)
    (hcap : 0 < A.capacity_) :
    (copyCtor h A).2.data_ = some h.bufs.length ∧
    (copyCtor h A).2.size_ = A.size_ ∧
    (copyCtor h A).2.capacity_ = A.capacity_ ∧
    (copyCtor h A).1.bufs.length = h.bufs.length + 1 ∧
    (∀ i, i < A.size_ → readElem (copyCtor h A).1 (copyCtor h A).2 i = readElem h A i) ∧
    (∀ b, b < h.bufs.length → (copyCtor h A).1.bufAt b = h.bufAt b) ∧
    Valid (copyCtor h A).1 (copyCtor h A).2 := by
  obtain ⟨⟨hsc, hiff⟩, hbuf⟩ := hv
  have hcc : copyCtor h A
      = (copyLoop A.data_ h.bufs.length (h.alloc A.capacity_).1 A.size_,
         { data_ := some h.bufs.length, size_ := A.size_,
           capacity_ := A.capacity_ }) := by
    rw [copyCtor, if_pos hcap]; rfl
  have hfreshlen : ((h.alloc A.capacity_).1.bufAt h.bufs.length).length
      = A.capacity_ := by
    rw [bufAt_alloc_self]; simp
  cases hd : A.data_ with
  | none => exact absurd (hiff.mp hd) (by omega)
  | some s =>
    obtain ⟨hsL, hslen⟩ := hbuf s (by simp [hd])
    have hsne : s ≠ h.bufs.length := by omega
    rw [hcc]
    refine ⟨rfl, rfl, rfl, ?_, ?_, ?_, ?_⟩
    · rw [copyLoop_bufs_length, bufs_length_alloc]
    · intro i hi
      simp only [readElem, hd]
      rw [copyLoop_readSlot_dst s h.bufs.length (h.alloc A.capacity_).1 hsne
        A.size_ (by rw [hfreshlen]; omega) i hi]
      simp only [Heap.readSlot, bufAt_alloc_lt h A.capacity_ s hsL]
    · intro b hb
      rw [copyLoop_bufAt_ne _ _ _ _ _ (by omega), bufAt_alloc_lt _ _ _ hb]
    · refine ⟨⟨by simp; omega, by simp; omega⟩, ?_⟩
      intro c hc
      simp only [Option.mem_def, Option.some.injEq] at hc
      subst hc
      constructor
      · rw [copyLoop_bufs_length, bufs_length_alloc]; omega
      · simp only [copyLoop_bufAt_len]
        rw [hfreshlen]

/-- Copy construction from a populated valid source: the copy has the
source's size and capacity, a distinct fresh buffer, equal elements, and
mutating the copy afterwards never changes the source's elements. -/
theorem copyCtor_independent (h : Heap α) (A : Vector) (ms : List (Mut α))
    (hv : Valid h A) (hpos : 0 < A.size_) :
    (copyCtor h A).2.size_ = A.size_ ∧
    (copyCtor h A).2.capacity_ = A.capacity_ ∧
    (copyCtor h A).2.data_ ≠ A.data_ ∧
    (∀ i, i < A.size_ → readElem (copyCtor h A).1 (copyCtor h A).2 i = readElem h A i) ∧
    (∀ i, readElem (applyMuts (copyCtor h A) ms).1 A i = readElem h A i) := by
  have hcap : 0 < A.capacity_ := by
    obtain ⟨⟨hsc, _⟩, _⟩ := hv; omega
  obtain ⟨cdata, csz, ccap, clen, celts, cpres, _⟩ := copyCtor_spec h A hv hcap
  obtain ⟨⟨hsc, hiff⟩, hbuf⟩ := hv
  cases hd : A.data_ with
  | none => exact absurd (hiff.mp hd) (by omega)
  | some a =>
    obtain ⟨haL, _⟩ := hbuf a (by simp [hd])
    refine ⟨csz, ccap, ?_, celts, ?_⟩
    · rw [cdata]
      intro heq
      have h1 : h.bufs.length = a := by
        injection heq
      omega
    · obtain ⟨_, _, hpresv⟩ := applyMuts_avoid ms (copyCtor h A) a
        (by rw [clen]; omega)
        (by rw [cdata]; intro c hc;
            simp only [Option.mem_def, Option.some.injEq] at hc; omega)
      intro i
      simp only [readElem, hd, Heap.readSlot]
      rw [hpresv, cpres a haL]

/-- Past the this == &other test, the copy assignment operator is the
destruction of the destination's old elements followed by exactly the
body of the copy constructor. -/
theorem copyAssign_eq_copyCtor (h : Heap α) (v u : Vector) :
    copyAssign h v u false = copyCtor (destructLoop v.data_ h v.size_) u := by
  rw [copyAssign, if_neg (by simp), copyCtor]

/-- Destructing another instance's elements does not disturb a valid
instance owning a disjoint buffer. -/
theorem destructLoop_preserves_valid (h : Heap α) (A : Vector) (bb : Option Nat)
    (n : Nat) (hdisj : ∀ b ∈ bb, ∀ c ∈ A.data_, b ≠ c) (hv : Valid h A) :
    Valid (destructLoop bb h n) A := by
  obtain ⟨hsi, hbuf⟩ := hv
  refine ⟨hsi, ?_⟩
  intro c hc
  obtain ⟨h1, h2⟩ := hbuf c hc
  refine ⟨by rw [destructLoop_bufs_length]; exact h1, ?_⟩
  rw [destructLoop_bufAt_ne _ _ _ _ (fun b hb => hdisj b hb c hc)]
  exact h2

theorem destructLoop_readElem (h : Heap α) (A : Vector) (bb : Option Nat) (n : Nat)
    (hdisj : ∀ b ∈ bb, ∀ c ∈ A.data_, b ≠ c) (i : Nat) :
    readElem (destructLoop bb h n) A i = readElem h A i := by
  cases hd : A.data_ with
  | none => simp [readElem, hd]
  | some a =>
    simp only [readElem, hd, Heap.readSlot]
    rw [destructLoop_bufAt_ne _ _ _ _ (fun b hb => hdisj b hb a (by simp [hd]))]

/-- C5. After B = A by copy construction, or by copy assignment into a
distinct instance B0 whose exclusively owned buffer is disjoint from the
source's, the copy has the source's size and capacity and equal elements
by value, owned through a distinct freshly allocated buffer; afterwards
any sequence of mutating calls applied only to the copy (push_back,
pop_back, indexed writes) leaves every element of the source unchanged —
the source's record is never passed to those calls and its buffer is
never written. -/
theorem copy_independent_fresh_buffer (h : Heap α) (A B0 : Vector) (ms : List (Mut α))
    (hv : Valid h A) (hpos : 0 < A.size_)
    (hdisj : ∀ b ∈ B0.data_, ∀ c ∈ A.data_, b ≠ c) :
    ((copyCtor h A).2.size_ = A.size_ ∧
     (copyCtor h A).2.capacity_ = A.capacity_ ∧
     (copyCtor h A).2.data_ ≠ A.data_ ∧
     (∀ i, i < A.size_ →
       readElem (copyCtor h A).1 (copyCtor h A).2 i = readElem h A i) ∧
     (∀ i, readElem (applyMuts (copyCtor h A) ms).1 A i = readElem h A i)) ∧
    ((copyAssign h B0 A false).2.size_ = A.size_ ∧
     (copyAssign h B0 A false).2.capacity_ = A.capacity_ ∧
     (copyAssign h B0 A false).2.data_ ≠ A.data_ ∧
     (∀ i, i < A.size_ →
       readElem (copyAssign h B0 A false).1 (copyAssign h B0 A false).2 i
         = readElem h A i) ∧
     (∀ i, readElem (applyMuts (copyAssign h B0 A false) ms).1 A i
         = readElem h A i)) := by
  refine ⟨copyCtor_independent h A ms hv hpos, ?_⟩
  have hv' : Valid (destructLoop B0.data_ h B0.size_) A :=
    destructLoop_preserves_valid h A B0.data_ B0.size_ hdisj hv
  obtain ⟨csz, ccap, cdata, celts, cmuts⟩ :=
    copyCtor_independent (destructLoop B0.data_ h B0.size_) A ms hv' hpos
  rw [copyAssign_eq_copyCtor]
  refine ⟨csz, ccap, cdata, ?_, ?_⟩
  · intro i hi
    rw [celts i hi, destructLoop_readElem h A B0.data_ B0.size_ hdisj i]
  · intro i
    rw [cmuts i, destructLoop_readElem h A B0.data_ B0.size_ hdisj i]

/-- Witness for C5: copying a one-element Vector (value 9) — by
construction and by assignment into a disjoint one-element instance —
and then overwriting the copy's element with 42 leaves the source's
element 9 readable unchanged, and the copy's buffer pointer differs from
the source's. -/
theorem copy_independent_fresh_buffer_witness :
    (copyCtor (⟨[[some 9], [some 1]]⟩ : Heap Nat) ⟨some 0, 1, 1⟩).2.data_ ≠ some 0 ∧
    readElem (applyMuts (copyCtor (⟨[[some 9], [some 1]]⟩ : Heap Nat) ⟨some 0, 1, 1⟩)
        [Mut.write 0 42]).1 ⟨some 0, 1, 1⟩ 0
      = readElem (⟨[[some 9], [some 1]]⟩ : Heap Nat) ⟨some 0, 1, 1⟩ 0 ∧
    readElem (applyMuts (copyAssign (⟨[[some 9], [some 1]]⟩ : Heap Nat) ⟨some 1, 1, 1⟩
        ⟨some 0, 1, 1⟩ false) [Mut.write 0 42]).1 ⟨some 0, 1, 1⟩ 0
      = readElem (⟨[[some 9], [some 1]]⟩ : Heap Nat) ⟨some 0, 1, 1⟩ 0 :=
  ⟨((copy_independent_fresh_buffer (⟨[[some 9], [some 1]]⟩ : Heap Nat) ⟨some 0, 1, 1⟩
      ⟨some 1, 1, 1⟩ [Mut.write 0 42] (by decide) (by decide) (by decide)).1).2.2.1,
   ((copy_independent_fresh_buffer (⟨[[some 9], [some 1]]⟩ : Heap Nat) ⟨some 0, 1, 1⟩
      ⟨some 1, 1, 1⟩ [Mut.write 0 42] (by decide) (by decide) (by decide)).1).2.2.2.2 0,
   ((copy_independent_fresh_buffer (⟨[[some 9], [some 1]]⟩ : Heap Nat) ⟨some 0, 1, 1⟩
      ⟨some 1, 1, 1⟩ [Mut.write 0 42] (by decide) (by decide) (by decide)).2).2.2.2.2 0⟩

/-- C8. Every operation that yields a container record preserves the
state invariant: 0 ≤ size_ ≤ capacity_ and the owned pointer is the null
sentinel iff capacity_ = 0 — for default and sized construction, copy
and move construction, copy and move assignment (either side of the
this == &other test, and for move both the destination and the
moved-from source), push_back, pop_back and reserve; an indexed access
returns only a value or a heap and leaves the record untouched by
construction (its record component in applyMut form below). -/
theorem ops_preserve_state_invariant [Inhabited α] (h : Heap α) :
    StateInv mkVector ∧
    (∀ n, StateInv (mkVectorSized (α := α) h n).2) ∧
    (∀ u : Vector, StateInv u → StateInv (copyCtor (α := α) h u).2) ∧
    (∀ (v u : Vector) (eqf : Bool), StateInv v → StateInv u →
      StateInv (copyAssign (α := α) h v u eqf).2) ∧
    (∀ u : Vector, StateInv u →
      StateInv (moveCtor (α := α) h u).2.1 ∧ StateInv (moveCtor (α := α) h u).2.2) ∧
    (∀ (v u : Vector) (eqf : Bool), StateInv v → StateInv u →
      StateInv (moveAssign (α := α) h v u eqf).2.1 ∧
      StateInv (moveAssign (α := α) h v u eqf).2.2) ∧
    (∀ (v : Vector) (x : α), StateInv v → StateInv (push_back h v x).2) ∧
    (∀ v : Vector, StateInv v → StateInv (pop_back (α := α) h v).2) ∧
    (∀ (v : Vector) (n : Nat), StateInv v → StateInv (reserve (α := α) h v n).2) ∧
    (∀ (v : Vector) (i : Nat) (x : α), StateInv v →
      StateInv (applyMut (h, v) (Mut.write i x)).2) := by
  have hreserve : ∀ (v : Vector) (n : Nat), StateInv v →
      StateInv (reserve (α := α) h v n).2 := by
    intro v n ⟨h1, h2⟩
    by_cases hle : n ≤ v.capacity_
    · rw [reserve, if_pos hle]; exact ⟨h1, h2⟩
    · have : reserve h v n
          = (moveLoop v.data_ h.bufs.length (h.alloc n).1 v.size_,
             { v with data_ := some h.bufs.length, capacity_ := n }) := by
        rw [reserve, if_neg hle]; rfl
      rw [this]
      exact ⟨by simp; omega, by simp; omega⟩
  refine ⟨⟨Nat.le_refl 0, by simp [mkVector]⟩, ?_, ?_, ?_, ?_, ?_, ?_, ?_, hreserve, ?_⟩
  · intro n
    by_cases h0 : 0 < n
    · have : mkVectorSized (α := α) h n
          = (initLoop (h.alloc n).2 (h.alloc n).1 n,
             { data_ := some h.bufs.length, size_ := n, capacity_ := n }) := by
        rw [mkVectorSized, if_pos h0]; rfl
      rw [this]
      exact ⟨Nat.le_refl n, by simp; omega⟩
    · have : mkVectorSized (α := α) h n
          = (h, { data_ := none, size_ := n, capacity_ := n }) := by
        rw [mkVectorSized, if_neg h0]
      rw [this]
      exact ⟨Nat.le_refl n, by simp; omega⟩
  · intro u ⟨h1, h2⟩
    by_cases hc : 0 < u.capacity_
    · have : copyCtor h u
          = (copyLoop u.data_ h.bufs.length (h.alloc u.capacity_).1 u.size_,
             { data_ := some h.bufs.length, size_ := u.size_,
               capacity_ := u.capacity_ }) := by
        rw [copyCtor, if_pos hc]; rfl
      rw [this]
      exact ⟨h1, by simp; omega⟩
    · have : copyCtor h u
          = (h, { data_ := none, size_ := u.size_, capacity_ := u.capacity_ }) := by
        rw [copyCtor, if_neg hc]
      rw [this]
      exact ⟨h1, by simp; omega⟩
  · intro v u eqf ⟨h1, h2⟩ ⟨h3, h4⟩
    cases eqf with
    | true => rw [copyAssign, if_pos rfl]; exact ⟨h1, h2⟩
    | false =>
      by_cases hc : 0 < u.capacity_
      · have : copyAssign h v u false
            = (copyLoop u.data_
                 (destructLoop v.data_ h v.size_).bufs.length
                 ((destructLoop v.data_ h v.size_).alloc u.capacity_).1 u.size_,
               { data_ := some (destructLoop v.data_ h v.size_).bufs.length,
                 size_ := u.size_, capacity_ := u.capacity_ }) := by
          rw [copyAssign, if_neg (by simp), if_pos hc]; rfl
        rw [this]
        exact ⟨h3, by simp; omega⟩
      · have : copyAssign h v u false
            = (destructLoop v.data_ h v.size_,
               { data_ := none, size_ := u.size_, capacity_ := u.capacity_ }) := by
          rw [copyAssign, if_neg (by simp), if_neg hc]
        rw [this]
        exact ⟨h3, by simp; omega⟩
  · intro u ⟨h3, h4⟩
    exact ⟨⟨h3, h4⟩, ⟨Nat.le_refl 0, ⟨fun _ => rfl, fun _ => rfl⟩⟩⟩
  · intro v u eqf ⟨h1, h2⟩ ⟨h3, h4⟩
    cases eqf with
    | true => rw [moveAssign, if_pos rfl]; exact ⟨⟨h1, h2⟩, ⟨h3, h4⟩⟩
    | false =>
      have : moveAssign h v u false
          = (destructLoop v.data_ h v.size_,
             { data_ := u.data_, size_ := u.size_, capacity_ := u.capacity_ },
             { data_ := none, size_ := 0, capacity_ := 0 }) := by
        rw [moveAssign, if_neg (by simp)]
      rw [this]
      exact ⟨⟨h3, h4⟩, ⟨Nat.le_refl 0, ⟨fun _ => rfl, fun _ => rfl⟩⟩⟩
  · intro v x ⟨h1, h2⟩
    by_cases hsc : v.size_ = v.capacity_
    · have hpb : push_back h v x
          = (writeElem (reserve h v (new_capacity v.capacity_)).1
               (reserve h v (new_capacity v.capacity_)).2
               (reserve h v (new_capacity v.capacity_)).2.size_ (some x),
             { (reserve h v (new_capacity v.capacity_)).2 with
                size_ := (reserve h v (new_capacity v.capacity_)).2.size_ + 1 }) := by
        rw [push_back, if_pos hsc]
      have hlt : ¬ new_capacity v.capacity_ ≤ v.capacity_ := by
        have := lt_new_capacity v.capacity_; omega
      have hrs : reserve h v (new_capacity v.capacity_)
          = (moveLoop v.data_ h.bufs.length (h.alloc (new_capacity v.capacity_)).1
               v.size_,
             { v with data_ := some h.bufs.length, capacity_ := new_capacity v.capacity_ }) := by
        rw [reserve, if_neg hlt]; rfl
      rw [hpb, hrs]
      have hnc := lt_new_capacity v.capacity_
      exact ⟨by simp; omega, by simp; omega⟩
    · have hpb : push_back h v x
          = (writeElem h v v.size_ (some x), { v with size_ := v.size_ + 1 }) := by
        rw [push_back, if_neg hsc]
      rw [hpb]
      refine ⟨by simp; omega, by simpa using h2⟩
  · intro v ⟨h1, h2⟩
    by_cases hpos : 0 < v.size_
    · have : pop_back (α := α) h v
          = (writeElem h v (v.size_ - 1) none, { v with size_ := v.size_ - 1 }) := by
        rw [pop_back, if_pos hpos]
      rw [this]
      exact ⟨by simp; omega, by simpa using h2⟩
    · rw [pop_back, if_neg hpos]
      exact ⟨h1, h2⟩
  · intro v i x ⟨h1, h2⟩
    exact ⟨h1, h2⟩

/-- Witness for C8: concrete instances of the invariant preservation —
push_back on a full one-element Vector, pop_back on it, copy assignment
into it from an empty Vector, and the sized constructor. -/
theorem ops_preserve_state_invariant_witness :
    StateInv (push_back (⟨[[some 4]]⟩ : Heap Nat) ⟨some 0, 1, 1⟩ 7).2 ∧
    StateInv (pop_back (⟨[[some 4]]⟩ : Heap Nat) ⟨some 0, 1, 1⟩).2 ∧
    StateInv (copyAssign (⟨[[some 4]]⟩ : Heap Nat) ⟨some 0, 1, 1⟩ mkVector false).2 ∧
    StateInv (mkVectorSized (⟨[]⟩ : Heap Nat) 2).2 :=
  ⟨(ops_preserve_state_invariant (⟨[[some 4]]⟩ : Heap Nat)).2.2.2.2.2.2.1
      ⟨some 0, 1, 1⟩ 7 (by decide),
   (ops_preserve_state_invariant (⟨[[some 4]]⟩ : Heap Nat)).2.2.2.2.2.2.2.1
      ⟨some 0, 1, 1⟩ (by decide),
   (ops_preserve_state_invariant (⟨[[some 4]]⟩ : Heap Nat)).2.2.2.1
      ⟨some 0, 1, 1⟩ mkVector false (by decide) (by decide),
   (ops_preserve_state_invariant (⟨[]⟩ : Heap Nat)).2.1 2⟩

end PolicyVec
